import Mathlib

set_option autoImplicit false

/-!
Verification of the document-ingestion and retrieval pipeline of the
knowledge-base core (the `kb/` / `app/core` Python service documented in
`agent-server/README.md` and `agent-server/OCR_SETUP.md`).  The pipeline
implementation itself is not shipped in this repository snapshot, so the
definitions below are modelled from the specification, faithful to its words,
and the claimed properties are proved against that model.
-/

namespace KB

universe u v

/-! ## Basic string machinery

Chunk contents are strings; we reason about them through their underlying
character lists. -/

/-- Concatenation of a list of strings, defined directly on the underlying
character lists so that list lemmas apply definitionally. -/
def sjoin (l : List String) : String :=
  String.mk (List.flatten (l.map String.data))

/-- Drop the first `n` characters of a string. -/
def dropStr (n : Nat) (s : String) : String :=
  String.mk (s.data.drop n)

/-- The trailing `n` characters of a string (the whole string when `n` exceeds
its length). -/
def takeRightStr (n : Nat) (s : String) : String :=
  String.mk (s.data.drop (s.data.length - n))

theorem length_eq_data (s : String) : s.length = s.data.length := rfl

theorem data_mk (l : List Char) : (String.mk l).data = l := rfl

theorem append_data (a b : String) : (a ++ b).data = a.data ++ b.data :=
  String.data_append a b

theorem sjoin_nil : sjoin [] = "" := rfl

theorem sjoin_cons (s : String) (l : List String) :
    sjoin (s :: l) = s ++ sjoin l := by
  apply String.ext
  simp [sjoin, append_data]

theorem length_sjoin (l : List String) :
    (sjoin l).length = (l.map String.length).sum := by
  induction l with
  | nil => rfl
  | cons s t ih =>
      rw [sjoin_cons]
      simp [String.length_append, ih]

theorem length_takeRightStr (n : Nat) (s : String) :
    (takeRightStr n s).length = min n s.length := by
  show (s.data.drop (s.data.length - n)).length = min n s.data.length
  rw [List.length_drop]
  omega

theorem ne_empty_of_length_pos {s : String} (h : 0 < s.length) : s ≠ "" := by
  intro he
  rw [he] at h
  simp at h

theorem length_pos_of_ne_empty {s : String} (h : s ≠ "") : 0 < s.length := by
  rcases s with ⟨l⟩
  cases l with
  | nil => exact absurd rfl h
  | cons c cs => simp [length_eq_data]

/-- A nonempty list of nonempty strings joins to a nonempty string. -/
theorem sjoin_ne_empty {l : List String} (hne : l ≠ [])
    (h : ∀ s ∈ l, s ≠ "") : sjoin l ≠ "" := by
  cases l with
  | nil => exact absurd rfl hne
  | cons s t =>
      apply ne_empty_of_length_pos
      rw [length_sjoin]
      have hs : 0 < s.length := length_pos_of_ne_empty (h s (by simp))
      simp
      omega

/-! ## Indexed lists -/

/-- Pair every element of a list with its position, starting at `k`. -/
def withIdx {α : Type u} (k : Nat) : List α → List (Nat × α)
  | [] => []
  | a :: as => (k, a) :: withIdx (k + 1) as

theorem withIdx_map_snd {α : Type u} (k : Nat) (l : List α) :
    (withIdx k l).map Prod.snd = l := by
  induction l generalizing k with
  | nil => rfl
  | cons a as ih => simp [withIdx, ih]

theorem fst_ge_of_mem_withIdx {α : Type u} {k : Nat} {l : List α}
    {p : Nat × α} (h : p ∈ withIdx k l) : k ≤ p.1 := by
  induction l generalizing k with
  | nil => simp [withIdx] at h
  | cons a as ih =>
      simp [withIdx] at h
      rcases h with h | h
      · simp [h]
      · have := ih h
        omega

theorem snd_mem_of_mem_withIdx {α : Type u} {k : Nat} {l : List α}
    {p : Nat × α} (h : p ∈ withIdx k l) : p.2 ∈ l := by
  induction l generalizing k with
  | nil => simp [withIdx] at h
  | cons a as ih =>
      simp [withIdx] at h
      rcases h with h | h
      · simp [h]
      · exact List.mem_cons_of_mem _ (ih h)

/-- Indices in `withIdx` are strictly increasing, hence pairwise distinct. -/
theorem withIdx_pairwise_lt {α : Type u} (k : Nat) (l : List α) :
    (withIdx k l).Pairwise (fun p q => p.1 < q.1) := by
  induction l generalizing k with
  | nil => simp [withIdx]
  | cons a as ih =>
      simp only [withIdx]
      refine List.Pairwise.cons ?_ (ih (k + 1))
      intro q hq
      have := fst_ge_of_mem_withIdx hq
      simp
      omega

/-! ## Greedy packing

The size-based strategies (`text`, `parent_child`) greedily accumulate
consecutive units into groups whose total weight stays below a target size; a
single unit heavier than the target is never split (spec §4.4 edge-case
policy). -/

/-- Worker for `packBy`: `cur` is the group under construction (reversed) and
`cw` its accumulated weight. -/
def packGo {α : Type u} (w : α → Nat) (size : Nat) :
    List α → List α → Nat → List (List α)
  | [], cur, _ => [cur.reverse]
  | a :: as, cur, cw =>
      if cw + w a ≤ size then packGo w size as (a :: cur) (cw + w a)
      else cur.reverse :: packGo w size as [a] (w a)

/-- Greedy left-to-right packing of a list into contiguous groups of total
weight at most `size` (single overweight elements stay intact). -/
def packBy {α : Type u} (w : α → Nat) (size : Nat) : List α → List (List α)
  | [] => []
  | a :: as => packGo w size as [a] (w a)

theorem packGo_flatten {α : Type u} (w : α → Nat) (size : Nat) :
    ∀ (as cur : List α) (cw : Nat),
      (packGo w size as cur cw).flatten = cur.reverse ++ as := by
  intro as
  induction as with
  | nil => intro cur cw; simp [packGo]
  | cons a as ih =>
      intro cur cw
      simp only [packGo]
      split
      · rw [ih]
        simp
      · simp only [List.flatten_cons, ih]
        simp

/-- Packing loses and duplicates nothing: the groups flatten back to the
input list. -/
theorem packBy_flatten {α : Type u} (w : α → Nat) (size : Nat) (l : List α) :
    (packBy w size l).flatten = l := by
  cases l with
  | nil => rfl
  | cons a as =>
      simp only [packBy]
      rw [packGo_flatten]
      simp

theorem packGo_ne_nil {α : Type u} (w : α → Nat) (size : Nat) :
    ∀ (as cur : List α) (cw : Nat), cur ≠ [] →
      ∀ g ∈ packGo w size as cur cw, g ≠ [] := by
  intro as
  induction as with
  | nil =>
      intro cur cw hcur g hg
      simp [packGo] at hg
      subst hg
      simpa using hcur
  | cons a as ih =>
      intro cur cw hcur g hg
      simp only [packGo] at hg
      split at hg
      · exact ih _ _ (by simp) g hg
      · rcases List.mem_cons.mp hg with h | h
        · subst h; simpa using hcur
        · exact ih _ _ (by simp) g h

/-- Every group produced by packing is nonempty. -/
theorem packBy_ne_nil {α : Type u} (w : α → Nat) (size : Nat) (l : List α) :
    ∀ g ∈ packBy w size l, g ≠ [] := by
  cases l with
  | nil => intro g hg; simp [packBy] at hg
  | cons a as =>
      intro g hg
      exact packGo_ne_nil w size as [a] (w a) (by simp) g hg

theorem packBy_of_ne_nil {α : Type u} (w : α → Nat) (size : Nat)
    {l : List α} (h : l ≠ []) : packBy w size l ≠ [] := by
  cases l with
  | nil => exact absurd rfl h
  | cons a as =>
      simp only [packBy]
      cases as with
      | nil => simp [packGo]
      | cons b bs =>
          simp only [packGo]
          split
          all_goals
            intro hc
            have := congrArg (List.length ∘ List.flatten) hc
            simp [packGo_flatten] at this

/-- A singleton input always packs into exactly one singleton group, whatever
the size target. -/
theorem packBy_singleton {α : Type u} (w : α → Nat) (size : Nat) (a : α) :
    packBy w size [a] = [[a]] := rfl

theorem mem_of_mem_packBy {α : Type u} {w : α → Nat} {size : Nat}
    {l g : List α} {a : α} (hg : g ∈ packBy w size l) (ha : a ∈ g) :
    a ∈ l := by
  have : a ∈ (packBy w size l).flatten := List.mem_flatten.mpr ⟨g, hg, ha⟩
  rwa [packBy_flatten] at this

/-- A member group of a packing is a contiguous segment of the input. -/
theorem segment_of_mem_packBy {α : Type u} {w : α → Nat} {size : Nat}
    {l g : List α} (hg : g ∈ packBy w size l) :
    ∃ p q, l = p ++ (g ++ q) := by
  rcases List.append_of_mem hg with ⟨s, t, hst⟩
  refine ⟨s.flatten, t.flatten, ?_⟩
  have h := packBy_flatten w size l
  rw [hst] at h
  rw [← h]
  simp

/-! ## Identifier encoding

`chunk_id` / `parent_id` values are strings derived from the owning document
id and a position counter; the encoding is injective, which is what makes the
ids globally unique (spec §3). -/

/-- The decimal digit character for `n % 10`-style values. -/
def digitChar (n : Nat) : Char := Char.ofNat (48 + n)

/-- Fuel-bounded worker for `natLsd` (structural recursion, so identifiers
evaluate by reduction). -/
def natLsdGo : Nat → Nat → List Nat
  | _, 0 => []
  | 0, _ + 1 => []
  | fuel + 1, n + 1 => ((n + 1) % 10) :: natLsdGo fuel ((n + 1) / 10)

/-- Decimal digits of a natural number, least significant first (empty for
zero). -/
def natLsd (n : Nat) : List Nat := natLsdGo n n

/-- Value of a least-significant-first digit list. -/
def lsdVal : List Nat → Nat :=
  List.foldr (fun d a => d + 10 * a) 0

theorem lsdVal_natLsdGo :
    ∀ (fuel n : Nat), n ≤ fuel → lsdVal (natLsdGo fuel n) = n := by
  intro fuel
  induction fuel with
  | zero =>
      intro n hn
      match n, hn with
      | 0, _ => rfl
  | succ fuel ih =>
      intro n hn
      match n with
      | 0 => rfl
      | m + 1 =>
          show (m + 1) % 10 + 10 * lsdVal (natLsdGo fuel ((m + 1) / 10)) = m + 1
          have hdiv : (m + 1) / 10 ≤ fuel := by
            have := Nat.div_lt_self (Nat.succ_pos m) (show 1 < 10 by decide)
            omega
          rw [ih ((m + 1) / 10) hdiv]
          omega

theorem lsdVal_natLsd (n : Nat) : lsdVal (natLsd n) = n :=
  lsdVal_natLsdGo n n (Nat.le_refl n)

theorem natLsd_injective {m n : Nat} (h : natLsd m = natLsd n) : m = n := by
  have := congrArg lsdVal h
  rwa [lsdVal_natLsd, lsdVal_natLsd] at this

theorem natLsdGo_lt_ten :
    ∀ (fuel n : Nat), ∀ d ∈ natLsdGo fuel n, d < 10 := by
  intro fuel
  induction fuel with
  | zero =>
      intro n d hd
      match n, hd with
      | 0, hd => simp [natLsdGo] at hd
      | _ + 1, hd => simp [natLsdGo] at hd
  | succ fuel ih =>
      intro n d hd
      match n, hd with
      | 0, hd => simp [natLsdGo] at hd
      | m + 1, hd =>
          rcases List.mem_cons.mp hd with h | h
          · subst h; exact Nat.mod_lt _ (by decide)
          · exact ih ((m + 1) / 10) d h

theorem natLsd_lt_ten (n : Nat) : ∀ d ∈ natLsd n, d < 10 :=
  natLsdGo_lt_ten n n

theorem digitChar_inj_small :
    ∀ a < 10, ∀ b < 10, digitChar a = digitChar b → a = b := by decide

theorem digitChar_ne_hash : ∀ a < 10, digitChar a ≠ '#' := by decide

theorem digitChar_ne_amp : ∀ a < 10, digitChar a ≠ '&' := by decide

/-- Decimal digit characters of a number (order: least significant first). -/
def natDigits (n : Nat) : List Char := (natLsd n).map digitChar

theorem natDigits_injective {m n : Nat} (h : natDigits m = natDigits n) :
    m = n := by
  apply natLsd_injective
  have hm := natLsd_lt_ten m
  have hn := natLsd_lt_ten n
  unfold natDigits at h
  revert hn h
  generalize natLsd n = bs
  revert hm
  generalize natLsd m = as
  induction as generalizing bs with
  | nil =>
      intro _ h _
      cases bs with
      | nil => rfl
      | cons b bs' => simp at h
  | cons a as' ih =>
      intro hm h hn
      cases bs with
      | nil => simp at h
      | cons b bs' =>
          simp only [List.map_cons, List.cons.injEq] at h
          have hab : a = b :=
            digitChar_inj_small a (hm a (by simp)) b (hn b (by simp)) h.1
          have : as' = bs' := by
            apply ih
            · intro d hd; exact hm d (List.mem_cons_of_mem _ hd)
            · exact h.2
            · intro d hd; exact hn d (List.mem_cons_of_mem _ hd)
          rw [hab, this]

theorem natDigits_sep_free {c : Char} (hc : c = '#' ∨ c = '&') :
    ∀ n, ∀ d ∈ natDigits n, d ≠ c := by
  intro n d hd
  rcases List.mem_map.mp hd with ⟨a, ha, rfl⟩
  have ha10 := natLsd_lt_ten n a ha
  rcases hc with rfl | rfl
  · exact digitChar_ne_hash a ha10
  · exact digitChar_ne_amp a ha10

/-- Splitting at a unique separator: if two separator-terminated
concatenations agree and neither tail contains either separator character,
the separators, heads and tails all coincide. -/
theorem sep_split {c₁ c₂ : Char} :
    ∀ (a b p q : List Char),
      (∀ x ∈ a, x ≠ c₁ ∧ x ≠ c₂) → (∀ x ∈ b, x ≠ c₁ ∧ x ≠ c₂) →
      a ++ c₁ :: p = b ++ c₂ :: q → c₁ = c₂ ∧ a = b ∧ p = q := by
  intro a
  induction a with
  | nil =>
      intro b p q _ hb h
      cases b with
      | nil =>
          simp at h
          exact ⟨h.1, rfl, h.2⟩
      | cons x b' =>
          simp at h
          exact absurd h.1.symm (hb x (by simp)).1
  | cons x a' ih =>
      intro b p q ha hb h
      cases b with
      | nil =>
          simp at h
          exact absurd h.1 (ha x (by simp)).2
      | cons y b' =>
          simp only [List.cons_append, List.cons.injEq] at h
          have hxy : x = y := h.1
          have hrest := ih b' p q
            (fun z hz => ha z (List.mem_cons_of_mem _ hz))
            (fun z hz => hb z (List.mem_cons_of_mem _ hz)) h.2
          exact ⟨hrest.1, by rw [hxy, hrest.2.1], hrest.2.2⟩

/-- Chunk ids: owning document id, a `#` separator, and a decimal position. -/
def mkChunkId (docId : String) (i : Nat) : String :=
  String.mk (docId.data ++ '#' :: natDigits i)

/-- Parent-chunk ids: owning document id, a `&` separator, and a decimal
position. -/
def mkParentId (docId : String) (j : Nat) : String :=
  String.mk (docId.data ++ '&' :: natDigits j)

theorem reverse_sep_free {c₁ c₂ : Char} {l : List Char}
    (h : ∀ x ∈ l, x ≠ c₁ ∧ x ≠ c₂) : ∀ x ∈ l.reverse, x ≠ c₁ ∧ x ≠ c₂ := by
  intro x hx
  exact h x (List.mem_reverse.mp hx)

theorem digits_sep_pair_free (n : Nat) :
    ∀ x ∈ natDigits n, x ≠ '#' ∧ x ≠ '&' := by
  intro x hx
  exact ⟨natDigits_sep_free (Or.inl rfl) n x hx,
         natDigits_sep_free (Or.inr rfl) n x hx⟩

/-- Splitting at the last separator: if two concatenations
`head ++ sep :: digits` agree, where the separators are drawn from the two
reserved characters (which never occur among decimal digits), then the
separators, heads and digit tails coincide. -/
theorem last_sep_split {c₁ c₂ : Char} {d₁ d₂ : List Char} {m n : Nat}
    (hc₁ : c₁ = '#' ∨ c₁ = '&') (hc₂ : c₂ = '#' ∨ c₂ = '&')
    (h : d₁ ++ c₁ :: natDigits m = d₂ ++ c₂ :: natDigits n) :
    c₁ = c₂ ∧ d₁ = d₂ ∧ m = n := by
  have hmf : ∀ x ∈ natDigits m, x ≠ c₁ ∧ x ≠ c₂ := by
    intro x hx
    exact ⟨natDigits_sep_free hc₁ m x hx, natDigits_sep_free hc₂ m x hx⟩
  have hnf : ∀ x ∈ natDigits n, x ≠ c₁ ∧ x ≠ c₂ := by
    intro x hx
    exact ⟨natDigits_sep_free hc₁ n x hx, natDigits_sep_free hc₂ n x hx⟩
  have hrev := congrArg List.reverse h
  simp only [List.reverse_append, List.reverse_cons] at hrev
  rw [List.append_assoc, List.append_assoc] at hrev
  simp only [List.singleton_append] at hrev
  have hsplit := sep_split (natDigits m).reverse (natDigits n).reverse
    d₁.reverse d₂.reverse
    (reverse_sep_free hmf) (reverse_sep_free hnf) hrev
  refine ⟨hsplit.1, ?_, ?_⟩
  · have := congrArg List.reverse hsplit.2.2
    simpa using this
  · apply natDigits_injective
    have := congrArg List.reverse hsplit.2.1
    simpa using this

theorem mkChunkId_inj {d d' : String} {i i' : Nat}
    (h : mkChunkId d i = mkChunkId d' i') : d = d' ∧ i = i' := by
  have hdata := congrArg String.data h
  simp only [mkChunkId, data_mk] at hdata
  have := last_sep_split (Or.inl rfl) (Or.inl rfl) hdata
  exact ⟨String.ext this.2.1, this.2.2⟩

theorem mkParentId_inj {d d' : String} {j j' : Nat}
    (h : mkParentId d j = mkParentId d' j') : d = d' ∧ j = j' := by
  have hdata := congrArg String.data h
  simp only [mkParentId, data_mk] at hdata
  have := last_sep_split (Or.inr rfl) (Or.inr rfl) hdata
  exact ⟨String.ext this.2.1, this.2.2⟩

/-- Chunk ids and parent ids can never collide: their separators differ. -/
theorem mkChunkId_ne_mkParentId (d d' : String) (i j : Nat) :
    mkChunkId d i ≠ mkParentId d' j := by
  intro h
  have hdata := congrArg String.data h
  simp only [mkChunkId, mkParentId, data_mk] at hdata
  have := last_sep_split (Or.inl rfl) (Or.inr rfl) hdata
  exact absurd this.1 (by decide)

/-! ## Data model

Modelled from the spec: the repository ships only the documentation of the
knowledge-base service (`agent-server/README.md` §知识库通用数据结构,
spec §3); the Python data-model code (`kb/`, `app/core`) is not in the
snapshot. -/

/-- Structural-unit kinds (spec §3, `StructuralUnit`). -/
inductive UnitKind
  | paragraph
  | sentence
  | table_row
  | heading
  | note
deriving DecidableEq, Repr

/-- Modelled from the spec: the transient unit produced by the Structure
Extractor (spec §3); `ctype` is the classifier's tag and `ocr` marks
OCR-derived text (spec §4.2/§4.3). -/
structure StructuralUnit where
  kind : UnitKind
  text : String
  section_path : List String
  page : Nat
  ctype : Option String
  ocr : Bool
deriving DecidableEq, Repr

/-- Modelled from the spec: the typed `meta` envelope of a chunk with its
well-known optional fields (spec §9, design note on the open `meta` map). -/
structure ChunkMeta where
  parent_id : Option String
  extracted_with_ocr : Bool
  source_page : Option Nat
deriving DecidableEq, Repr

/-- Modelled from the spec: the canonical persisted chunk record
(spec §3/§6, README 知识库通用数据结构). -/
structure Chunk where
  chunk_id : String
  doc_id : String
  doc_title : Option String
  section_path : Option (List String)
  content_type : Option String
  content : String
  meta : ChunkMeta
deriving DecidableEq, Repr

/-- A chunk before its `chunk_id`/`doc_id` are assigned (strategies emit
these; the ingestion pipeline completes them). -/
structure PreChunk where
  section_path : Option (List String)
  content_type : Option String
  content : String
  parent_id : Option String
  ocr : Bool
  source_page : Option Nat
deriving DecidableEq, Repr

/-- Modelled from the spec: the larger context tier emitted by the
`parent_child` strategy (spec §3, `ParentChunk`). -/
structure ParentChunk where
  parent_id : String
  doc_id : String
  section_path : Option (List String)
  content : String
deriving DecidableEq, Repr

/-- Declared source formats accepted by ingestion (spec §3, README 支持导入格式). -/
inductive Format
  | pdf
  | markdown
  | json
  | text
deriving DecidableEq, Repr

/-- The closed set of chunking strategies (spec §4.4, README 知识库切分策略). -/
inductive StrategyName
  | text
  | table
  | heading
  | structured
  | parent_child
deriving DecidableEq, Repr

/-- Typed ingestion errors (spec §7). -/
inductive IngestError
  | formatError
  | strategyUnsupported
  | persistenceError
deriving DecidableEq, Repr

/-- Modelled from the spec: the configuration of the pipeline
(README 配置说明 / OCR 配置; the `app/core/config.py` source is not in the
snapshot). -/
structure Config where
  chunkSize : Nat
  chunkOverlap : Nat
  splitStrategy : StrategyName
  enableParentChild : Bool
  parentChunkSize : Nat
  childChunkSize : Nat
  enableOcr : Bool
  ocrMinTextLength : Nat
deriving DecidableEq, Repr

/-- The documented default configuration: CHUNK_SIZE 1000, CHUNK_OVERLAP 200,
SPLIT_STRATEGY structured, ENABLE_PARENT_CHILD True, PARENT_CHUNK_SIZE 1024,
CHILD_CHUNK_SIZE 512, ENABLE_OCR True, OCR_MIN_TEXT_LENGTH 10
(README lines 857-870). -/
def defaultConfig : Config :=
  { chunkSize := 1000
    chunkOverlap := 200
    splitStrategy := StrategyName.structured
    enableParentChild := true
    parentChunkSize := 1024
    childChunkSize := 512
    enableOcr := true
    ocrMinTextLength := 10 }

/-- An ingestion input: document identity, declared format, and the ordered
classified structural units produced by the Structure Extractor (spec §4.4). -/
structure DocInput where
  doc_id : String
  doc_title : Option String
  fmt : Format
  units : List StructuralUnit
deriving DecidableEq, Repr

/-- Character weight of a structural unit, used by the size-based
strategies. -/
def unitLen (u : StructuralUnit) : Nat := u.text.length

/-- Concatenated text of a group of units. -/
def groupText (g : List StructuralUnit) : String :=
  sjoin (g.map StructuralUnit.text)

/-- A pre-chunk built from a contiguous group of units: content as given,
section path / content type / page from the first unit, OCR flag if any unit
was OCR-derived. -/
def mkPre (g : List StructuralUnit) (pid : Option String) (content : String) :
    PreChunk :=
  { section_path := g.head?.map StructuralUnit.section_path
    content_type := g.head?.bind StructuralUnit.ctype
    content := content
    parent_id := pid
    ocr := g.any StructuralUnit.ocr
    source_page := g.head?.map StructuralUnit.page }

/-! ## Overlap handling for the `text` strategy (spec §4.4) -/

/-- Worker for `addOverlap`: each chunk is preceded by the trailing `ov`
characters of the previous chunk's (already overlapped) content. -/
def addOverlapGo (ov : Nat) : String → List String → List String
  | _, [] => []
  | prev, c :: cs =>
      (takeRightStr ov prev ++ c) :: addOverlapGo ov (takeRightStr ov prev ++ c) cs

/-- Modelled from the spec: configurable overlap for the `text` strategy —
the trailing `ov` characters of the previous chunk are repeated at the start
of the next (spec §4.4); the overlap is clamped so it never exceeds the
shorter of the two adjacent chunks. -/
def addOverlap (ov : Nat) : List String → List String
  | [] => []
  | c :: cs => c :: addOverlapGo ov c cs

/-- Worker for `stripOverlap`: remove from each chunk the overlap contributed
by its predecessor. -/
def stripGo (ov : Nat) : String → List String → List String
  | _, [] => []
  | prev, c :: cs => dropStr (min ov prev.length) c :: stripGo ov c cs

/-- Remove the configured overlap from every chunk after the first. -/
def stripOverlap (ov : Nat) : List String → List String
  | [] => []
  | c :: cs => c :: stripGo ov c cs

theorem dropStr_len_append (a b : String) : dropStr a.length (a ++ b) = b := by
  apply String.ext
  show ((a ++ b).data).drop a.data.length = b.data
  rw [append_data]
  exact List.drop_left a.data b.data

theorem stripGo_addOverlapGo (ov : Nat) :
    ∀ (xs : List String) (prev : String),
      stripGo ov prev (addOverlapGo ov prev xs) = xs := by
  intro xs
  induction xs with
  | nil => intro prev; rfl
  | cons x xs ih =>
      intro prev
      simp only [addOverlapGo, stripGo]
      rw [List.cons.injEq]
      constructor
      · have hlen : min ov prev.length = (takeRightStr ov prev).length :=
          (length_takeRightStr ov prev).symm
        rw [hlen]
        exact dropStr_len_append (takeRightStr ov prev) x
      · exact ih (takeRightStr ov prev ++ x)

/-- Stripping the overlap recovers exactly the un-overlapped chunk bodies. -/
theorem stripOverlap_addOverlap (ov : Nat) (xs : List String) :
    stripOverlap ov (addOverlap ov xs) = xs := by
  cases xs with
  | nil => rfl
  | cons x xs =>
      simp only [addOverlap, stripOverlap, List.cons.injEq, true_and]
      exact stripGo_addOverlapGo ov xs x

theorem length_addOverlapGo (ov : Nat) :
    ∀ (xs : List String) (prev : String),
      (addOverlapGo ov prev xs).length = xs.length := by
  intro xs
  induction xs with
  | nil => intro prev; rfl
  | cons x xs ih =>
      intro prev
      simp only [addOverlapGo, List.length_cons]
      rw [ih]

theorem length_addOverlap (ov : Nat) (xs : List String) :
    (addOverlap ov xs).length = xs.length := by
  cases xs with
  | nil => rfl
  | cons x xs =>
      simp only [addOverlap, List.length_cons]
      rw [length_addOverlapGo]

theorem exists_core_le_of_mem_addOverlapGo (ov : Nat) :
    ∀ (xs : List String) (prev : String),
      ∀ y ∈ addOverlapGo ov prev xs, ∃ x ∈ xs, x.length ≤ y.length := by
  intro xs
  induction xs with
  | nil => intro prev y hy; simp [addOverlapGo] at hy
  | cons x xs ih =>
      intro prev y hy
      simp only [addOverlapGo] at hy
      rcases List.mem_cons.mp hy with h | h
      · refine ⟨x, by simp, ?_⟩
        subst h
        rw [String.length_append]
        omega
      · rcases ih (takeRightStr ov prev ++ x) y h with ⟨x', hx', hlen⟩
        exact ⟨x', List.mem_cons_of_mem _ hx', hlen⟩

/-- Every overlapped chunk is at least as long as its un-overlapped body. -/
theorem exists_core_le_of_mem_addOverlap (ov : Nat) (xs : List String) :
    ∀ y ∈ addOverlap ov xs, ∃ x ∈ xs, x.length ≤ y.length := by
  cases xs with
  | nil => intro y hy; simp [addOverlap] at hy
  | cons x xs =>
      intro y hy
      rcases List.mem_cons.mp hy with h | h
      · exact ⟨x, by simp, by rw [h]⟩
      · rcases exists_core_le_of_mem_addOverlapGo ov xs x y h with ⟨x', hx', hlen⟩
        exact ⟨x', List.mem_cons_of_mem _ hx', hlen⟩

/-! ## Grouping of consecutive units -/

/-- Worker for `groupRuns`: `b` is the previous element and `cur` the run
under construction (reversed). -/
def runsGo {α : Type u} {β : Type v} [DecidableEq β] (key : α → β) :
    List α → α → List α → List (List α)
  | [], _, cur => [cur.reverse]
  | a :: as, b, cur =>
      if key a = key b then runsGo key as a (a :: cur)
      else cur.reverse :: runsGo key as a [a]

/-- Group a list into maximal runs of consecutive elements sharing a key. -/
def groupRuns {α : Type u} {β : Type v} [DecidableEq β] (key : α → β) :
    List α → List (List α)
  | [] => []
  | a :: as => runsGo key as a [a]

theorem runsGo_flatten {α : Type u} {β : Type v} [DecidableEq β]
    (key : α → β) :
    ∀ (as : List α) (b : α) (cur : List α),
      (runsGo key as b cur).flatten = cur.reverse ++ as := by
  intro as
  induction as with
  | nil => intro b cur; simp [runsGo]
  | cons a as ih =>
      intro b cur
      simp only [runsGo]
      split
      · rw [ih]
        simp
      · simp only [List.flatten_cons, ih]
        simp

theorem groupRuns_flatten {α : Type u} {β : Type v} [DecidableEq β]
    (key : α → β) (l : List α) : (groupRuns key l).flatten = l := by
  cases l with
  | nil => rfl
  | cons a as =>
      simp only [groupRuns]
      rw [runsGo_flatten]
      simp

theorem runsGo_ne_nil {α : Type u} {β : Type v} [DecidableEq β]
    (key : α → β) :
    ∀ (as : List α) (b : α) (cur : List α), cur ≠ [] →
      ∀ g ∈ runsGo key as b cur, g ≠ [] := by
  intro as
  induction as with
  | nil =>
      intro b cur hcur g hg
      simp [runsGo] at hg
      subst hg
      simpa using hcur
  | cons a as ih =>
      intro b cur hcur g hg
      simp only [runsGo] at hg
      split at hg
      · exact ih _ _ (by simp) g hg
      · rcases List.mem_cons.mp hg with h | h
        · subst h; simpa using hcur
        · exact ih _ _ (by simp) g h

theorem groupRuns_ne_nil {α : Type u} {β : Type v} [DecidableEq β]
    (key : α → β) (l : List α) : ∀ g ∈ groupRuns key l, g ≠ [] := by
  cases l with
  | nil => intro g hg; simp [groupRuns] at hg
  | cons a as =>
      intro g hg
      exact runsGo_ne_nil key as a [a] (by simp) g hg

theorem mem_of_mem_groupRuns {α : Type u} {β : Type v} [DecidableEq β]
    {key : α → β} {l g : List α} {a : α}
    (hg : g ∈ groupRuns key l) (ha : a ∈ g) : a ∈ l := by
  have : a ∈ (groupRuns key l).flatten := List.mem_flatten.mpr ⟨g, hg, ha⟩
  rwa [groupRuns_flatten] at this

/-- Worker for `headingSections`: a heading closes the current section and
opens a new one. -/
def headGo : List StructuralUnit → List StructuralUnit →
    List (List StructuralUnit)
  | [], cur => [cur.reverse]
  | u :: us, cur =>
      if u.kind = UnitKind.heading then cur.reverse :: headGo us [u]
      else headGo us (u :: cur)

/-- Sections delimited by `heading` units: each heading starts a new section
that absorbs all following non-heading units; units before the first heading
form a leading section. -/
def headingSections : List StructuralUnit → List (List StructuralUnit)
  | [] => []
  | u :: us => headGo us [u]

theorem headGo_flatten :
    ∀ (us cur : List StructuralUnit),
      (headGo us cur).flatten = cur.reverse ++ us := by
  intro us
  induction us with
  | nil => intro cur; simp [headGo]
  | cons u us ih =>
      intro cur
      simp only [headGo]
      split
      · simp only [List.flatten_cons, ih]
        simp
      · rw [ih]
        simp

theorem headingSections_flatten (l : List StructuralUnit) :
    (headingSections l).flatten = l := by
  cases l with
  | nil => rfl
  | cons u us =>
      simp only [headingSections]
      rw [headGo_flatten]
      simp

theorem headGo_ne_nil :
    ∀ (us cur : List StructuralUnit), cur ≠ [] →
      ∀ g ∈ headGo us cur, g ≠ [] := by
  intro us
  induction us with
  | nil =>
      intro cur hcur g hg
      simp [headGo] at hg
      subst hg
      simpa using hcur
  | cons u us ih =>
      intro cur hcur g hg
      simp only [headGo] at hg
      split at hg
      · rcases List.mem_cons.mp hg with h | h
        · subst h; simpa using hcur
        · exact ih _ (by simp) g h
      · exact ih _ (by simp) g hg

theorem headingSections_ne_nil (l : List StructuralUnit) :
    ∀ g ∈ headingSections l, g ≠ [] := by
  cases l with
  | nil => intro g hg; simp [headingSections] at hg
  | cons u us =>
      intro g hg
      exact headGo_ne_nil us [u] (by simp) g hg

theorem mem_of_mem_headingSections {l g : List StructuralUnit}
    {a : StructuralUnit} (hg : g ∈ headingSections l) (ha : a ∈ g) : a ∈ l := by
  have : a ∈ (headingSections l).flatten := List.mem_flatten.mpr ⟨g, hg, ha⟩
  rwa [headingSections_flatten] at this

/-! ## Chunking strategies

Modelled from the spec: the strategy modules
`kb/strategy/text_strategy.py`, `table_strategy.py`, `heading_strategy.py`,
`structured_strategy.py` and `parent_child_strategy.py` named by the README
are not in the snapshot; each definition follows the contract of spec §4.4. -/

/-- Modelled from the spec: the `text` strategy greedily accumulates units
into chunks up to `chunkSize` characters, never splitting a single unit, and
repeats the trailing `chunkOverlap` characters of the previous chunk at the
start of the next (spec §4.4). -/
def textStrategy (cfg : Config) (units : List StructuralUnit) :
    List PreChunk :=
  let gs := packBy unitLen cfg.chunkSize units
  let contents := addOverlap cfg.chunkOverlap (gs.map groupText)
  (List.zip gs contents).map (fun p => mkPre p.1 none p.2)

def isTableRow (u : StructuralUnit) : Bool :=
  decide (u.kind = UnitKind.table_row)

/-- Chunks for one logical table: the header row is replicated into every
data-row chunk so no row loses its column context (spec §4.4, `table`). -/
def tableChunks : List StructuralUnit → List PreChunk
  | [] => []
  | h :: rows =>
      match rows with
      | [] => [mkPre [h] none h.text]
      | _ :: _ => rows.map (fun r => mkPre [h, r] none (h.text ++ "\n" ++ r.text))

def tableGroupHead (g : List StructuralUnit) : Bool :=
  match g.head? with
  | some u => isTableRow u
  | none => false

/-- Modelled from the spec: the `table` strategy emits one chunk per data row
of each maximal run of `table_row` units, with the header row replicated
(spec §4.4). -/
def tableStrategy (units : List StructuralUnit) : List PreChunk :=
  ((groupRuns isTableRow units).filter tableGroupHead).flatMap tableChunks

/-- Modelled from the spec: the `heading` strategy emits one chunk per
heading-delimited section (spec §4.4; the size-based merge/split refinement
for nested sub-headings is configuration-dependent and not modelled). -/
def headingStrategy (units : List StructuralUnit) : List PreChunk :=
  (headingSections units).map (fun g => mkPre g none (groupText g))

/-- Modelled from the spec: the `structured` strategy follows the document's
own hierarchical boundaries — consecutive units sharing a `section_path`
form one chunk (spec §4.4). -/
def structuredStrategy (units : List StructuralUnit) : List PreChunk :=
  (groupRuns StructuralUnit.section_path units).map
    (fun g => mkPre g none (groupText g))

/-- A parent chunk built from the `j`-th parent group. -/
def mkParentChunk (docId : String) (j : Nat) (g : List StructuralUnit) :
    ParentChunk :=
  { parent_id := mkParentId docId j
    doc_id := docId
    section_path := g.head?.map StructuralUnit.section_path
    content := groupText g }

/-- A child pre-chunk inside the `j`-th parent. -/
def childPre (docId : String) (j : Nat) (g : List StructuralUnit) : PreChunk :=
  mkPre g (some (mkParentId docId j)) (groupText g)

/-- Modelled from the spec: the `parent_child` strategy first aggregates
contiguous units into parents up to `parentChunkSize`, then re-splits each
parent into children up to `childChunkSize`, every child carrying
`meta.parent_id` (spec §4.4). -/
def parentChildStrategy (cfg : Config) (docId : String)
    (units : List StructuralUnit) : List PreChunk × List ParentChunk :=
  let pgroups := withIdx 0 (packBy unitLen cfg.parentChunkSize units)
  ( pgroups.flatMap
      (fun p => (packBy unitLen cfg.childChunkSize p.2).map (childPre docId p.1))
  , pgroups.map (fun p => mkParentChunk docId p.1 p.2) )

/-- Modelled from the spec: when `structured` composes with `parent_child`,
the structured groups become the units that parent/child tiering re-groups
(spec §4.4: "structured first groups units by section/table boundaries,
parent_child then re-groups the structured output"). -/
def structuredUnits (units : List StructuralUnit) : List StructuralUnit :=
  (groupRuns StructuralUnit.section_path units).map
    (fun g =>
      { kind := UnitKind.paragraph
        text := groupText g
        section_path := (g.head?.map StructuralUnit.section_path).getD []
        page := (g.head?.map StructuralUnit.page).getD 0
        ctype := g.head?.bind StructuralUnit.ctype
        ocr := g.any StructuralUnit.ocr })

/-! ## Ingestion pipeline

Modelled from the spec: the import pipeline (`kb/imports/*`, README
知识库导入流程) is not in the snapshot.  A structural unit that produced no
text is dropped before chunking (spec §3 invariant); `chunk_id`s are assigned
at chunk-creation time from the owning document id and the chunk position. -/

/-- Drop units whose text is empty (extraction failure with no OCR recovery,
spec §3: dropped, never persisted as an empty chunk). -/
def dropEmptyUnits (units : List StructuralUnit) : List StructuralUnit :=
  units.filter (fun u => decide (u.text ≠ ""))

/-- Dispatch one strategy run (spec §4.4); the only permitted composition is
`structured` followed by `parent_child`, triggered by `enableParentChild`. -/
def strategyRun (cfg : Config) (docId : String) (s : StrategyName)
    (units : List StructuralUnit) : List PreChunk × List ParentChunk :=
  match s with
  | StrategyName.text => (textStrategy cfg units, [])
  | StrategyName.table => (tableStrategy units, [])
  | StrategyName.heading => (headingStrategy units, [])
  | StrategyName.structured =>
      if cfg.enableParentChild then
        parentChildStrategy cfg docId (structuredUnits units)
      else (structuredStrategy units, [])
  | StrategyName.parent_child => parentChildStrategy cfg docId units

/-- Complete a pre-chunk into a persisted chunk record: position-derived
`chunk_id`, owning `doc_id`, and the typed `meta` envelope. -/
def mkChunk (d : DocInput) (i : Nat) (p : PreChunk) : Chunk :=
  { chunk_id := mkChunkId d.doc_id i
    doc_id := d.doc_id
    doc_title := d.doc_title
    section_path := p.section_path
    content_type := p.content_type
    content := p.content
    meta :=
      { parent_id := p.parent_id
        extracted_with_ocr := p.ocr
        source_page := p.source_page } }

/-- Assign ids by position over the emitted pre-chunks. -/
def assignIds (d : DocInput) (ps : List PreChunk) : List Chunk :=
  (withIdx 0 ps).map (fun q => mkChunk d q.1 q.2)

/-- The result of chunking one document. -/
structure IngestOutput where
  chunks : List Chunk
  parents : List ParentChunk
deriving DecidableEq, Repr

/-- The `structured` strategy requires structure-annotated input and is
unsupported for raw Text/JSON (spec §4.4, README: 暂不支持 Text/JSON 格式文件). -/
def structuredUnsupported : StrategyName → Format → Bool
  | StrategyName.structured, Format.text => true
  | StrategyName.structured, Format.json => true
  | _, _ => false

/-- Modelled from the spec: chunk one document under a selected strategy
(spec §4.4/§6); fails fast with `strategyUnsupported` for `structured`
against Text/JSON, otherwise drops empty units and runs the strategy. -/
def chunkDocument (cfg : Config) (s : StrategyName) (d : DocInput) :
    Except IngestError IngestOutput :=
  if structuredUnsupported s d.fmt then
    Except.error IngestError.strategyUnsupported
  else
    Except.ok
      { chunks := assignIds d (strategyRun cfg d.doc_id s (dropEmptyUnits d.units)).1
        parents := (strategyRun cfg d.doc_id s (dropEmptyUnits d.units)).2 }

/-! ## Dual-store persistence

Modelled from the spec: `kb/vector_store/vector_store.py` and the parent
store (`parent_chunks.db`) are not in the snapshot; spec §4.5 gives the
contract. -/

/-- A vector-index entry: a retrieval-sized chunk plus its embedding. -/
structure VecEntry where
  chunk : Chunk
  embedding : List Int
deriving DecidableEq, Repr

/-- The two independent stores: the vector index and the keyed parent store
(spec §2/§4.5). -/
structure Stores where
  vec : List VecEntry
  parentStore : List (String × ParentChunk)
deriving DecidableEq, Repr

/-- Modelled from the spec: `persist(chunks, parents)` writes parents first,
then the chunks with embeddings into the vector index (spec §4.5); parent
bodies go only to the keyed parent store. -/
def persist (embed : String → List Int) (st : Stores)
    (chunks : List Chunk) (parents : List ParentChunk) : Stores :=
  { vec := st.vec ++ chunks.map (fun c => { chunk := c, embedding := embed c.content })
    parentStore := st.parentStore ++ parents.map (fun p => (p.parent_id, p)) }

/-- Modelled from the spec: the ingestion entry point — chunk the document
and persist on success; on a typed error nothing is written and the stores
are returned unchanged (spec §6/§7). -/
def runIngest (cfg : Config) (embed : String → List Int) (st : Stores)
    (s : StrategyName) (d : DocInput) :
    Stores × Except IngestError (Nat × Nat) :=
  match chunkDocument cfg s d with
  | Except.error e => (st, Except.error e)
  | Except.ok out =>
      (persist embed st out.chunks out.parents,
       Except.ok (out.chunks.length, out.parents.length))

/-- Modelled from the spec: `fetch_parent(parent_id)` returns the parent
content or a not-found signal, tolerated by callers (spec §4.5). -/
def fetch_parent (st : Stores) (pid : String) : Option String :=
  (st.parentStore.find? (fun e => decide (e.1 = pid))).map (fun e => e.2.content)

/-- Modelled from the spec: `delete_document(doc_id)` removes all chunks and
parents owned by that document from both stores (spec §4.5). -/
def delete_document (st : Stores) (docId : String) : Stores :=
  { vec := st.vec.filter (fun e => decide (e.chunk.doc_id ≠ docId))
    parentStore := st.parentStore.filter (fun e => decide (e.2.doc_id ≠ docId)) }

/-! ## Retrieval orchestrator

Modelled from the spec: the query path (spec §4.6) — embed, nearest-neighbor
search (here: descending dot-product score with stable ties), optional parent
expansion. -/

/-- Dot-product similarity between two embedding vectors. -/
def dot (a b : List Int) : Int :=
  (List.zipWith (fun x y => x * y) a b).sum

/-- Insert into a descending-sorted list, after all strictly greater or equal
scores (stable: ties keep original order). -/
def insertDesc {α : Type u} (score : α → Int) (x : α) : List α → List α
  | [] => [x]
  | y :: ys =>
      if score y < score x then x :: y :: ys else y :: insertDesc score x ys

/-- Stable sort by descending score. -/
def sortDesc {α : Type u} (score : α → Int) : List α → List α
  | [] => []
  | x :: xs => insertDesc score x (sortDesc score xs)

theorem mem_insertDesc {α : Type u} (score : α → Int) (x : α) :
    ∀ (l : List α) (a : α), a ∈ insertDesc score x l ↔ a = x ∨ a ∈ l := by
  intro l
  induction l with
  | nil => intro a; simp [insertDesc]
  | cons y ys ih =>
      intro a
      simp only [insertDesc]
      split
      · simp
      · simp only [List.mem_cons, ih]
        tauto

theorem mem_sortDesc {α : Type u} (score : α → Int) :
    ∀ (l : List α) (a : α), a ∈ sortDesc score l ↔ a ∈ l := by
  intro l
  induction l with
  | nil => intro a; simp [sortDesc]
  | cons x xs ih =>
      intro a
      simp only [sortDesc, mem_insertDesc, ih, List.mem_cons]

/-- One retrieval result: the matched chunk, its score, and the optionally
attached parent content (the child content is never discarded, spec §4.6). -/
structure QueryHit where
  chunk : Chunk
  score : Int
  parent_content : Option String
deriving DecidableEq, Repr

/-- Modelled from the spec: `query(text, top_k, expand_parent)` embeds the
query, ranks the vector index by descending similarity, takes `top_k`, and,
when requested and the hit carries `meta.parent_id`, attaches the parent
content fetched from the parent store; a missing parent yields no parent
content rather than an error (spec §4.6). -/
def query (st : Stores) (embed : String → List Int) (text : String)
    (topK : Nat) (expandParent : Bool) : List QueryHit :=
  let qv := embed text
  let scored := st.vec.map (fun e => (e.chunk, dot qv e.embedding))
  let ranked := sortDesc Prod.snd scored
  (ranked.take topK).map
    (fun p =>
      { chunk := p.1
        score := p.2
        parent_content :=
          if expandParent then
            (p.1.meta.parent_id).bind (fetch_parent st)
          else none })

/-! ## PDF page extraction and the OCR fallback

Modelled from the spec: `app/core/document_loader.py` (OCR implementation)
is not in the snapshot; OCR_SETUP.md 工作原理 and spec §4.2 give the logic:
measure the directly extracted text, invoke recognition when it is below
`ocrMinTextLength`, and mark OCR-derived results via `extracted_with_ocr`. -/

/-- A PDF page: the directly extractable text and the rendered page image
(an opaque payload handed to the injected recognition capability). -/
structure PdfPage where
  directText : String
  image : String
deriving DecidableEq, Repr

/-- The OCR decision: recognition is attempted iff OCR is enabled and the
directly extracted text is shorter than the configured threshold. -/
def ocrInvoked (cfg : Config) (page : PdfPage) : Bool :=
  cfg.enableOcr && decide (page.directText.length < cfg.ocrMinTextLength)

/-- The per-page extraction result. -/
structure PageResult where
  text : String
  extracted_with_ocr : Bool
deriving DecidableEq, Repr

/-- Modelled from the spec: process one PDF page — keep the direct text
unless the OCR decision fires and the injected recognition capability is
available and returns text, in which case the OCR text is used and flagged;
an unavailable capability degrades silently to the direct text (spec §4.2). -/
def processPage (cfg : Config) :
    Option (String → String) → PdfPage → PageResult
  | none, page => { text := page.directText, extracted_with_ocr := false }
  | some r, page =>
      if ocrInvoked cfg page then
        if decide (r page.image ≠ "") then
          { text := r page.image, extracted_with_ocr := true }
        else { text := page.directText, extracted_with_ocr := false }
      else { text := page.directText, extracted_with_ocr := false }

/-- The structural unit carrying one extracted page. -/
def pageUnit (pr : PageResult) (pageNo : Nat) : StructuralUnit :=
  { kind := UnitKind.paragraph
    text := pr.text
    section_path := []
    page := pageNo
    ctype := none
    ocr := pr.extracted_with_ocr }

/-- Extract all pages of a PDF into structural units, pages numbered from 1
and recombined in original order (spec §5). -/
def pdfPageUnits (cfg : Config) (recognize : Option (String → String))
    (pages : List PdfPage) : List StructuralUnit :=
  (withIdx 1 pages).map (fun p => pageUnit (processPage cfg recognize p.2) p.1)

/-! ## Strategy selection -/

/-- Modelled from the spec: the caller-facing strategy choice — exactly one
strategy per ingestion run, defaulting to `text` when the caller does not
pick one (spec §4.4, README 导入流程 step 2: 默认为 text). -/
def selectStrategy (req : Option StrategyName) : StrategyName :=
  req.getD StrategyName.text

/-- The list of strategy passes a run executes: the selected strategy alone,
except that `structured` composes with `parent_child` when parent/child mode
is enabled (spec §4.4). -/
def appliedStrategies (cfg : Config) (s : StrategyName) : List StrategyName :=
  if s = StrategyName.structured ∧ cfg.enableParentChild then
    [StrategyName.structured, StrategyName.parent_child]
  else [s]

/-! ## Strategy output invariants -/

theorem groupText_ne_empty {g : List StructuralUnit} (hne : g ≠ [])
    (h : ∀ u ∈ g, u.text ≠ "") : groupText g ≠ "" := by
  apply sjoin_ne_empty
  · simpa [List.map_eq_nil_iff] using hne
  · intro s hs
    rcases List.mem_map.mp hs with ⟨u, hu, rfl⟩
    exact h u hu

theorem textStrategy_content_ne (cfg : Config) (units : List StructuralUnit)
    (h : ∀ u ∈ units, u.text ≠ "") :
    ∀ p ∈ textStrategy cfg units, p.content ≠ "" := by
  intro p hp
  unfold textStrategy at hp
  rcases List.mem_map.mp hp with ⟨q, hq, rfl⟩
  have hzip := List.of_mem_zip hq
  have hy : q.2 ∈ addOverlap cfg.chunkOverlap
      ((packBy unitLen cfg.chunkSize units).map groupText) := hzip.2
  rcases exists_core_le_of_mem_addOverlap _ _ _ hy with ⟨x, hx, hlen⟩
  rcases List.mem_map.mp hx with ⟨g, hg, rfl⟩
  have hgne : groupText g ≠ "" := by
    refine groupText_ne_empty (packBy_ne_nil _ _ _ g hg) ?_
    intro u hu
    exact h u (mem_of_mem_packBy hg hu)
  show q.2 ≠ ""
  apply ne_empty_of_length_pos
  have := length_pos_of_ne_empty hgne
  omega

theorem tableStrategy_content_ne (units : List StructuralUnit)
    (h : ∀ u ∈ units, u.text ≠ "") :
    ∀ p ∈ tableStrategy units, p.content ≠ "" := by
  intro p hp
  unfold tableStrategy at hp
  rcases List.mem_flatMap.mp hp with ⟨g, hg, hpg⟩
  have hgmem : g ∈ groupRuns isTableRow units := List.mem_of_mem_filter hg
  cases g with
  | nil => simp [tableChunks] at hpg
  | cons hd rows =>
      have hhd : hd.text ≠ "" :=
        h hd (mem_of_mem_groupRuns hgmem (by simp))
      cases rows with
      | nil =>
          simp [tableChunks] at hpg
          subst hpg
          exact hhd
      | cons r rs =>
          simp only [tableChunks] at hpg
          rcases List.mem_map.mp hpg with ⟨r', _, rfl⟩
          show hd.text ++ "\n" ++ r'.text ≠ ""
          apply ne_empty_of_length_pos
          rw [String.length_append, String.length_append]
          have := length_pos_of_ne_empty hhd
          omega

theorem headingStrategy_content_ne (units : List StructuralUnit)
    (h : ∀ u ∈ units, u.text ≠ "") :
    ∀ p ∈ headingStrategy units, p.content ≠ "" := by
  intro p hp
  unfold headingStrategy at hp
  rcases List.mem_map.mp hp with ⟨g, hg, rfl⟩
  show groupText g ≠ ""
  refine groupText_ne_empty (headingSections_ne_nil _ g hg) ?_
  intro u hu
  exact h u (mem_of_mem_headingSections hg hu)

theorem structuredStrategy_content_ne (units : List StructuralUnit)
    (h : ∀ u ∈ units, u.text ≠ "") :
    ∀ p ∈ structuredStrategy units, p.content ≠ "" := by
  intro p hp
  unfold structuredStrategy at hp
  rcases List.mem_map.mp hp with ⟨g, hg, rfl⟩
  show groupText g ≠ ""
  refine groupText_ne_empty (groupRuns_ne_nil _ _ g hg) ?_
  intro u hu
  exact h u (mem_of_mem_groupRuns hg hu)

theorem parentChild_content_ne (cfg : Config) (docId : String)
    (units : List StructuralUnit) (h : ∀ u ∈ units, u.text ≠ "") :
    ∀ p ∈ (parentChildStrategy cfg docId units).1, p.content ≠ "" := by
  intro p hp
  unfold parentChildStrategy at hp
  rcases List.mem_flatMap.mp hp with ⟨q, hq, hpq⟩
  rcases List.mem_map.mp hpq with ⟨g, hg, rfl⟩
  show groupText g ≠ ""
  refine groupText_ne_empty (packBy_ne_nil _ _ _ g hg) ?_
  intro u hu
  have hu2 : u ∈ q.2 := mem_of_mem_packBy hg hu
  have hq2 : q.2 ∈ packBy unitLen cfg.parentChunkSize units :=
    snd_mem_of_mem_withIdx hq
  exact h u (mem_of_mem_packBy hq2 hu2)

theorem structuredUnits_text_ne (units : List StructuralUnit)
    (h : ∀ u ∈ units, u.text ≠ "") :
    ∀ u ∈ structuredUnits units, u.text ≠ "" := by
  intro u hu
  unfold structuredUnits at hu
  rcases List.mem_map.mp hu with ⟨g, hg, rfl⟩
  show groupText g ≠ ""
  refine groupText_ne_empty (groupRuns_ne_nil _ _ g hg) ?_
  intro v hv
  exact h v (mem_of_mem_groupRuns hg hv)

/-- All five strategies (and the structured∘parent_child composition) emit
only non-empty chunk contents when every input unit has text. -/
theorem strategyRun_content_ne (cfg : Config) (docId : String)
    (s : StrategyName) (units : List StructuralUnit)
    (h : ∀ u ∈ units, u.text ≠ "") :
    ∀ p ∈ (strategyRun cfg docId s units).1, p.content ≠ "" := by
  cases s with
  | text => exact textStrategy_content_ne cfg units h
  | table => exact tableStrategy_content_ne units h
  | heading => exact headingStrategy_content_ne units h
  | structured =>
      simp only [strategyRun]
      split
      · exact parentChild_content_ne cfg docId (structuredUnits units)
          (structuredUnits_text_ne units h)
      · exact structuredStrategy_content_ne units h
  | parent_child => exact parentChild_content_ne cfg docId units h

theorem dropEmptyUnits_sound (units : List StructuralUnit) :
    ∀ u ∈ dropEmptyUnits units, u.text ≠ "" := by
  intro u hu
  have := (List.mem_filter.mp hu).2
  exact of_decide_eq_true this

theorem mem_assignIds {d : DocInput} {ps : List PreChunk} {c : Chunk}
    (hc : c ∈ assignIds d ps) :
    ∃ q, q ∈ withIdx 0 ps ∧ c = mkChunk d q.1 q.2 := by
  unfold assignIds at hc
  rcases List.mem_map.mp hc with ⟨q, hq, he⟩
  exact ⟨q, hq, he.symm⟩

theorem assignIds_ids_pairwise (d : DocInput) (ps : List PreChunk) :
    ((assignIds d ps).map Chunk.chunk_id).Pairwise (fun a b => a ≠ b) := by
  unfold assignIds
  rw [List.map_map]
  refine List.Pairwise.map _ ?_ (withIdx_pairwise_lt 0 ps)
  intro a b hlt
  show mkChunkId d.doc_id a.1 ≠ mkChunkId d.doc_id b.1
  intro he
  have := (mkChunkId_inj he).2
  omega

theorem chunkDocument_ok {cfg : Config} {s : StrategyName} {d : DocInput}
    {out : IngestOutput} (h : chunkDocument cfg s d = Except.ok out) :
    out.chunks
        = assignIds d (strategyRun cfg d.doc_id s (dropEmptyUnits d.units)).1 ∧
    out.parents = (strategyRun cfg d.doc_id s (dropEmptyUnits d.units)).2 := by
  unfold chunkDocument at h
  split at h
  · simp at h
  · rw [Except.ok.injEq] at h
    exact ⟨by rw [← h], by rw [← h]⟩

/-- C1: for every ingestion run with any chunking strategy, every persisted
chunk has non-empty `content` (text-less units are dropped, never persisted)
and a `doc_id` equal to the source document's; `chunk_id`s are pairwise
distinct within the run and distinct from every chunk of any run on a
different document (any strategy), hence globally unique. -/
theorem chunk_record_invariants (cfg : Config) (s : StrategyName)
    (d : DocInput) (out : IngestOutput)
    (h : chunkDocument cfg s d = Except.ok out) :
    (∀ c ∈ out.chunks, c.content ≠ "" ∧ c.doc_id = d.doc_id) ∧
    ((out.chunks.map Chunk.chunk_id).Pairwise fun a b => a ≠ b) ∧
    ∀ (cfg' : Config) (s' : StrategyName) (d' : DocInput)
      (out' : IngestOutput),
      chunkDocument cfg' s' d' = Except.ok out' → d.doc_id ≠ d'.doc_id →
      ∀ c ∈ out.chunks, ∀ c' ∈ out'.chunks, c.chunk_id ≠ c'.chunk_id := by
  rcases chunkDocument_ok h with ⟨hch, _⟩
  refine ⟨?_, ?_, ?_⟩
  · intro c hc
    rw [hch] at hc
    rcases mem_assignIds hc with ⟨q, hq, rfl⟩
    constructor
    · show q.2.content ≠ ""
      exact strategyRun_content_ne cfg d.doc_id s (dropEmptyUnits d.units)
        (dropEmptyUnits_sound d.units) q.2 (snd_mem_of_mem_withIdx hq)
    · rfl
  · rw [hch]
    exact assignIds_ids_pairwise d _
  · intro cfg' s' d' out' h' hne c hc c' hc'
    rcases chunkDocument_ok h' with ⟨hch', _⟩
    rw [hch] at hc
    rw [hch'] at hc'
    rcases mem_assignIds hc with ⟨q, _, rfl⟩
    rcases mem_assignIds hc' with ⟨q', _, rfl⟩
    show mkChunkId d.doc_id q.1 ≠ mkChunkId d'.doc_id q'.1
    intro he
    exact hne (mkChunkId_inj he).1

/-! ## Reconstruction for the `text` strategy -/

theorem sjoin_append (l₁ l₂ : List String) :
    sjoin (l₁ ++ l₂) = sjoin l₁ ++ sjoin l₂ := by
  apply String.ext
  simp [sjoin, append_data]

theorem groupText_flatten (gs : List (List StructuralUnit)) :
    sjoin (gs.map groupText) = groupText gs.flatten := by
  induction gs with
  | nil => rfl
  | cons g gs ih =>
      rw [List.map_cons, sjoin_cons, ih]
      show groupText g ++ groupText gs.flatten = groupText (g :: gs).flatten
      unfold groupText
      rw [List.flatten_cons, List.map_append, sjoin_append]

theorem textStrategy_contents (cfg : Config) (units : List StructuralUnit) :
    (textStrategy cfg units).map PreChunk.content
      = addOverlap cfg.chunkOverlap
          ((packBy unitLen cfg.chunkSize units).map groupText) := by
  unfold textStrategy
  rw [List.map_map]
  have hlen : (addOverlap cfg.chunkOverlap
      ((packBy unitLen cfg.chunkSize units).map groupText)).length
        ≤ (packBy unitLen cfg.chunkSize units).length := by
    rw [length_addOverlap, List.length_map]
  have := List.map_snd_zip (packBy unitLen cfg.chunkSize units)
    (addOverlap cfg.chunkOverlap
      ((packBy unitLen cfg.chunkSize units).map groupText)) hlen
  exact this

/-- C3: for any unit sequence, the `text` strategy's chunk contents, after
stripping the configured overlap from each chunk, are exactly the greedy
cores; those cores flatten back to the unit sequence with nothing omitted or
duplicated, so the stripped concatenation rebuilds the original text. -/
theorem text_strategy_reconstruction (cfg : Config)
    (units : List StructuralUnit) :
    stripOverlap cfg.chunkOverlap
        ((textStrategy cfg units).map PreChunk.content)
      = (packBy unitLen cfg.chunkSize units).map groupText ∧
    (packBy unitLen cfg.chunkSize units).flatten = units ∧
    sjoin (stripOverlap cfg.chunkOverlap
        ((textStrategy cfg units).map PreChunk.content))
      = sjoin (units.map StructuralUnit.text) := by
  have h1 : stripOverlap cfg.chunkOverlap
      ((textStrategy cfg units).map PreChunk.content)
        = (packBy unitLen cfg.chunkSize units).map groupText := by
    rw [textStrategy_contents, stripOverlap_addOverlap]
  refine ⟨h1, packBy_flatten unitLen cfg.chunkSize units, ?_⟩
  rw [h1, groupText_flatten, packBy_flatten]
  rfl

/-! ## Parent/child invariants -/

theorem withIdx_fst_inj {α : Type u} :
    ∀ {k : Nat} {l : List α} {q q' : Nat × α},
      q ∈ withIdx k l → q' ∈ withIdx k l → q.1 = q'.1 → q = q' := by
  intro k l
  induction l generalizing k with
  | nil => intro q q' hq; simp [withIdx] at hq
  | cons a as ih =>
      intro q q' hq hq' he
      simp only [withIdx, List.mem_cons] at hq hq'
      rcases hq with rfl | hq
      · rcases hq' with rfl | hq'
        · rfl
        · have := fst_ge_of_mem_withIdx hq'
          omega
      · rcases hq' with rfl | hq'
        · have := fst_ge_of_mem_withIdx hq
          omega
        · exact ih hq hq' he

theorem groupText_le_of_mem_packBy {size : Nat} {pg g : List StructuralUnit}
    (hg : g ∈ packBy unitLen size pg) :
    (groupText g).length ≤ (groupText pg).length := by
  rcases segment_of_mem_packBy hg with ⟨l₁, l₂, hpq⟩
  rw [hpq]
  unfold groupText
  rw [length_sjoin, length_sjoin, List.map_append, List.map_append,
    List.map_append, List.map_append, List.sum_append, List.sum_append]
  omega

theorem exists_withIdx_of_mem {α : Type u} {l : List α} {a : α}
    (ha : a ∈ l) : ∃ q ∈ withIdx 0 l, q.2 = a := by
  have hsnd := withIdx_map_snd 0 l
  rw [← hsnd] at ha
  rcases List.mem_map.mp ha with ⟨q, hq, he⟩
  exact ⟨q, hq, he⟩

theorem parentChild_resolution (cfg : Config) (docId : String)
    (units : List StructuralUnit) :
    ∀ p ∈ (parentChildStrategy cfg docId units).1, ∀ pid,
      p.parent_id = some pid →
      ∃ pc ∈ (parentChildStrategy cfg docId units).2, pc.parent_id = pid := by
  intro p hp pid hpid
  unfold parentChildStrategy at hp ⊢
  rcases List.mem_flatMap.mp hp with ⟨q, hq, hpq⟩
  rcases List.mem_map.mp hpq with ⟨g, _, rfl⟩
  have : some (mkParentId docId q.1) = some pid := hpid
  refine ⟨mkParentChunk docId q.1 q.2, List.mem_map_of_mem _ hq, ?_⟩
  show mkParentId docId q.1 = pid
  exact Option.some.inj this

theorem parentChild_has_child (cfg : Config) (docId : String)
    (units : List StructuralUnit) :
    ∀ pc ∈ (parentChildStrategy cfg docId units).2,
      ∃ p ∈ (parentChildStrategy cfg docId units).1,
        p.parent_id = some pc.parent_id := by
  intro pc hpc
  unfold parentChildStrategy at hpc ⊢
  rcases List.mem_map.mp hpc with ⟨q, hq, rfl⟩
  have hq2 : q.2 ≠ [] :=
    packBy_ne_nil unitLen cfg.parentChunkSize units q.2
      (snd_mem_of_mem_withIdx hq)
  have hpk : packBy unitLen cfg.childChunkSize q.2 ≠ [] :=
    packBy_of_ne_nil unitLen cfg.childChunkSize hq2
  rcases List.exists_mem_of_ne_nil _ hpk with ⟨g, hg⟩
  refine ⟨childPre docId q.1 g, ?_, rfl⟩
  exact List.mem_flatMap.mpr ⟨q, hq, List.mem_map_of_mem _ hg⟩

theorem parentChild_child_le (cfg : Config) (docId : String)
    (units : List StructuralUnit) :
    ∀ p ∈ (parentChildStrategy cfg docId units).1,
    ∀ pc ∈ (parentChildStrategy cfg docId units).2,
      p.parent_id = some pc.parent_id →
      p.content.length ≤ pc.content.length := by
  intro p hp pc hpc hid
  unfold parentChildStrategy at hp hpc
  rcases List.mem_flatMap.mp hp with ⟨q, hq, hpq⟩
  rcases List.mem_map.mp hpq with ⟨g, hg, rfl⟩
  rcases List.mem_map.mp hpc with ⟨q', hq', rfl⟩
  have hids : mkParentId docId q.1 = mkParentId docId q'.1 :=
    Option.some.inj hid
  have hfst : q.1 = q'.1 := (mkParentId_inj hids).2
  have hqq : q = q' := withIdx_fst_inj hq hq' hfst
  subst hqq
  show (groupText g).length ≤ (groupText q.2).length
  exact groupText_le_of_mem_packBy hg

/-- C2: for every `parent_child` ingestion run, each child's
`meta.parent_id` resolves to a parent produced in the same run, every parent
has at least one child, and no child's content is longer than its parent's
content. -/
theorem parent_child_run_invariants (cfg : Config) (d : DocInput)
    (out : IngestOutput)
    (h : chunkDocument cfg StrategyName.parent_child d = Except.ok out) :
    (∀ c ∈ out.chunks, ∀ pid, c.meta.parent_id = some pid →
        ∃ pc ∈ out.parents, pc.parent_id = pid) ∧
    (∀ pc ∈ out.parents, ∃ c ∈ out.chunks,
        c.meta.parent_id = some pc.parent_id) ∧
    (∀ c ∈ out.chunks, ∀ pc ∈ out.parents,
        c.meta.parent_id = some pc.parent_id →
        c.content.length ≤ pc.content.length) := by
  rcases chunkDocument_ok h with ⟨hch, hpa⟩
  have hrun : strategyRun cfg d.doc_id StrategyName.parent_child
      (dropEmptyUnits d.units)
        = parentChildStrategy cfg d.doc_id (dropEmptyUnits d.units) := rfl
  rw [hrun] at hch hpa
  refine ⟨?_, ?_, ?_⟩
  · intro c hc pid hpid
    rw [hch] at hc
    rcases mem_assignIds hc with ⟨q, hq, rfl⟩
    rw [hpa]
    exact parentChild_resolution cfg d.doc_id (dropEmptyUnits d.units) q.2
      (snd_mem_of_mem_withIdx hq) pid hpid
  · intro pc hpc
    rw [hpa] at hpc
    rcases parentChild_has_child cfg d.doc_id (dropEmptyUnits d.units)
      pc hpc with ⟨p, hp, hpid⟩
    rcases exists_withIdx_of_mem hp with ⟨q, hq, hq2⟩
    refine ⟨mkChunk d q.1 q.2, ?_, ?_⟩
    · rw [hch]
      exact List.mem_map_of_mem _ hq
    · show q.2.parent_id = some pc.parent_id
      rw [hq2, hpid]
  · intro c hc pc hpc hid
    rw [hch] at hc
    rw [hpa] at hpc
    rcases mem_assignIds hc with ⟨q, hq, rfl⟩
    exact parentChild_child_le cfg d.doc_id (dropEmptyUnits d.units)
      q.2 (snd_mem_of_mem_withIdx hq) pc hpc hid

/-! ## Error handling and persistence -/

/-- C4: selecting `structured` against a raw Text or JSON document fails
immediately with `strategyUnsupported`; nothing is chunked and the stores
are returned unchanged. -/
theorem structured_rejects_text_json (cfg : Config)
    (embed : String → List Int) (st : Stores) (d : DocInput)
    (h : d.fmt = Format.text ∨ d.fmt = Format.json) :
    runIngest cfg embed st StrategyName.structured d
      = (st, Except.error IngestError.strategyUnsupported) := by
  have hb : structuredUnsupported StrategyName.structured d.fmt = true := by
    rcases h with h | h <;> rw [h] <;> rfl
  unfold runIngest chunkDocument
  rw [hb]
  rfl

theorem parentChild_child_has_pid (cfg : Config) (docId : String)
    (units : List StructuralUnit) :
    ∀ p ∈ (parentChildStrategy cfg docId units).1, p.parent_id ≠ none := by
  intro p hp
  unfold parentChildStrategy at hp
  rcases List.mem_flatMap.mp hp with ⟨q, _, hpq⟩
  rcases List.mem_map.mp hpq with ⟨g, _, rfl⟩
  show some (mkParentId docId q.1) ≠ none
  simp

theorem parents_are_mkParentId (cfg : Config) (docId : String)
    (units : List StructuralUnit) :
    ∀ pc ∈ (parentChildStrategy cfg docId units).2,
      ∃ j, pc.parent_id = mkParentId docId j := by
  intro pc hpc
  unfold parentChildStrategy at hpc
  rcases List.mem_map.mp hpc with ⟨q, _, rfl⟩
  exact ⟨q.1, rfl⟩

theorem strategyRun_parents_mkParentId (cfg : Config) (docId : String)
    (s : StrategyName) (units : List StructuralUnit) :
    ∀ pc ∈ (strategyRun cfg docId s units).2,
      ∃ j, pc.parent_id = mkParentId docId j := by
  cases s with
  | text => intro pc hpc; simp [strategyRun] at hpc
  | table => intro pc hpc; simp [strategyRun] at hpc
  | heading => intro pc hpc; simp [strategyRun] at hpc
  | structured =>
      simp only [strategyRun]
      split
      · exact parents_are_mkParentId cfg docId (structuredUnits units)
      · intro pc hpc; simp at hpc
  | parent_child => exact parents_are_mkParentId cfg docId units

/-- C5: a successful ingestion appends exactly the run's chunk records (with
embeddings) to the vector index and exactly the run's parent bodies to the
parent store; when parent/child tiering is active every indexed chunk is a
child (it carries `meta.parent_id`), and no parent's id ever appears as an
indexed chunk id — parent bodies live only in the parent store. -/
theorem parents_never_in_vector_index (cfg : Config)
    (embed : String → List Int) (st : Stores) (s : StrategyName)
    (d : DocInput) (out : IngestOutput)
    (h : chunkDocument cfg s d = Except.ok out) :
    (runIngest cfg embed st s d).1.vec
        = st.vec ++ out.chunks.map
            (fun c => { chunk := c, embedding := embed c.content }) ∧
    (runIngest cfg embed st s d).1.parentStore
        = st.parentStore ++ out.parents.map (fun p => (p.parent_id, p)) ∧
    ((s = StrategyName.parent_child ∨
        (s = StrategyName.structured ∧ cfg.enableParentChild = true)) →
      ∀ c ∈ out.chunks, c.meta.parent_id ≠ none) ∧
    (∀ pc ∈ out.parents, ∀ c ∈ out.chunks, c.chunk_id ≠ pc.parent_id) := by
  rcases chunkDocument_ok h with ⟨hch, hpa⟩
  have hrun : runIngest cfg embed st s d
      = (persist embed st out.chunks out.parents,
         Except.ok (out.chunks.length, out.parents.length)) := by
    unfold runIngest
    rw [h]
  refine ⟨by rw [hrun]; rfl, by rw [hrun]; rfl, ?_, ?_⟩
  · intro hs c hc
    rw [hch] at hc
    rcases mem_assignIds hc with ⟨q, hq, rfl⟩
    show q.2.parent_id ≠ none
    have hq2 := snd_mem_of_mem_withIdx hq
    rcases hs with hs | hs
    · subst hs
      exact parentChild_child_has_pid cfg d.doc_id (dropEmptyUnits d.units)
        q.2 hq2
    · rcases hs with ⟨hs, hpc⟩
      subst hs
      simp only [strategyRun, hpc, if_pos] at hq2
      exact parentChild_child_has_pid cfg d.doc_id
        (structuredUnits (dropEmptyUnits d.units)) q.2 hq2
  · intro pc hpc c hc
    rw [hpa] at hpc
    rw [hch] at hc
    rcases mem_assignIds hc with ⟨q, _, rfl⟩
    rcases strategyRun_parents_mkParentId cfg d.doc_id s
      (dropEmptyUnits d.units) pc hpc with ⟨j, hj⟩
    show mkChunkId d.doc_id q.1 ≠ pc.parent_id
    rw [hj]
    exact mkChunkId_ne_mkParentId d.doc_id d.doc_id q.1 j

/-! ## Strategy selection and the default configuration -/

theorem strategyRun_parents_nil (cfg : Config) (docId : String)
    (s : StrategyName) (units : List StructuralUnit)
    (hs : s ≠ StrategyName.parent_child)
    (hcomp : ¬ (s = StrategyName.structured ∧ cfg.enableParentChild = true)) :
    (strategyRun cfg docId s units).2 = [] := by
  cases s with
  | text => rfl
  | table => rfl
  | heading => rfl
  | structured =>
      simp only [strategyRun]
      split
      · exact absurd ⟨rfl, by assumption⟩ hcomp
      · rfl
  | parent_child => exact absurd rfl hs

/-- C9: exactly one strategy is selected per run — `text` when the caller
does not choose; the applied passes are the selected strategy alone except
for the single permitted composition `structured` then `parent_child`; and a
run yields a parent tier only under `parent_child` or that composition. -/
theorem strategy_selection (cfg : Config) (s : StrategyName) :
    selectStrategy none = StrategyName.text ∧
    (∀ t, selectStrategy (some t) = t) ∧
    (appliedStrategies cfg s = [s] ∨
      (s = StrategyName.structured ∧ cfg.enableParentChild = true ∧
        appliedStrategies cfg s
          = [StrategyName.structured, StrategyName.parent_child])) ∧
    ∀ (d : DocInput) (out : IngestOutput),
      chunkDocument cfg s d = Except.ok out → out.parents ≠ [] →
      s = StrategyName.parent_child ∨
        (s = StrategyName.structured ∧ cfg.enableParentChild = true) := by
  refine ⟨rfl, fun t => rfl, ?_, ?_⟩
  · unfold appliedStrategies
    split
    · rename_i hcond
      exact Or.inr ⟨hcond.1, by simp [hcond.2], rfl⟩
    · exact Or.inl rfl
  · intro d out h hne
    rcases chunkDocument_ok h with ⟨_, hpa⟩
    by_contra hcon
    push_neg at hcon
    rcases hcon with ⟨hs, hcomp⟩
    have : out.parents = [] := by
      rw [hpa]
      refine strategyRun_parents_nil cfg d.doc_id s (dropEmptyUnits d.units)
        hs ?_
      intro hand
      exact absurd hand.2 (hcomp hand.1)
    exact hne this

theorem ne_nil_of_flatten {α : Type u} {L : List (List α)} {l : List α}
    (h : L.flatten = l) (hl : l ≠ []) : L ≠ [] := by
  intro hL
  apply hl
  rw [← h, hL]
  rfl

theorem withIdx_ne_nil {α : Type u} {l : List α} (h : l ≠ []) (k : Nat) :
    withIdx k l ≠ [] := by
  cases l with
  | nil => exact absurd rfl h
  | cons a as => simp [withIdx]

theorem structuredUnits_ne_nil {units : List StructuralUnit}
    (h : units ≠ []) : structuredUnits units ≠ [] := by
  unfold structuredUnits
  rw [Ne, List.map_eq_nil_iff]
  exact ne_nil_of_flatten (groupRuns_flatten StructuralUnit.section_path units) h

theorem parentChild_parents_ne_nil (cfg : Config) (docId : String)
    {units : List StructuralUnit} (h : units ≠ []) :
    (parentChildStrategy cfg docId units).2 ≠ [] := by
  unfold parentChildStrategy
  rw [Ne, List.map_eq_nil_iff]
  exact withIdx_ne_nil (packBy_of_ne_nil unitLen cfg.parentChunkSize h) 0

/-- C10: the documented default configuration enables parent/child tiering
(parent size 1024, child size 512) and selects the `structured` split, so a
default-configuration run on any document with at least one text-bearing
unit emits a non-empty parent tier and only child chunks — not a single
flat chunk sequence. -/
theorem default_run_emits_two_tiers (d : DocInput) (out : IngestOutput)
    (hne : dropEmptyUnits d.units ≠ [])
    (h : chunkDocument defaultConfig defaultConfig.splitStrategy d
        = Except.ok out) :
    defaultConfig.enableParentChild = true ∧
    defaultConfig.parentChunkSize = 1024 ∧
    defaultConfig.childChunkSize = 512 ∧
    out.parents ≠ [] ∧
    ∀ c ∈ out.chunks, c.meta.parent_id ≠ none := by
  rcases chunkDocument_ok h with ⟨hch, hpa⟩
  have hrun : strategyRun defaultConfig d.doc_id defaultConfig.splitStrategy
      (dropEmptyUnits d.units)
        = parentChildStrategy defaultConfig d.doc_id
            (structuredUnits (dropEmptyUnits d.units)) := rfl
  rw [hrun] at hch hpa
  refine ⟨rfl, rfl, rfl, ?_, ?_⟩
  · rw [hpa]
    exact parentChild_parents_ne_nil defaultConfig d.doc_id
      (structuredUnits_ne_nil hne)
  · intro c hc
    rw [hch] at hc
    rcases mem_assignIds hc with ⟨q, hq, rfl⟩
    show q.2.parent_id ≠ none
    exact parentChild_child_has_pid defaultConfig d.doc_id
      (structuredUnits (dropEmptyUnits d.units)) q.2
      (snd_mem_of_mem_withIdx hq)

/-! ## OCR fallback behaviour -/

theorem processPage_flag (cfg : Config) (rec : Option (String → String))
    (page : PdfPage)
    (h : (processPage cfg rec page).extracted_with_ocr = true) :
    (processPage cfg rec page).text ≠ "" ∧ ocrInvoked cfg page = true := by
  cases rec with
  | none => simp [processPage] at h
  | some r =>
      simp only [processPage] at h ⊢
      split at h
      · rename_i hinv
        split at h
        · rename_i hne
          rw [if_pos hinv, if_pos hne]
          exact ⟨of_decide_eq_true hne, hinv⟩
        · simp at h
      · simp at h

/-- C6: with OCR enabled, the OCR path fires exactly when the directly
extracted page text is shorter than `ocrMinTextLength` (default 10); when
OCR supplied the text of a page, every chunk built from that page carries
`meta.extracted_with_ocr = true`. -/
theorem ocr_fallback_behaviour (cfg : Config) (r : String → String)
    (page : PdfPage) (docId : String) (title : Option String)
    (hocr : cfg.enableOcr = true) :
    ((ocrInvoked cfg page = true) ↔
        page.directText.length < cfg.ocrMinTextLength) ∧
    defaultConfig.ocrMinTextLength = 10 ∧
    ((processPage cfg (some r) page).extracted_with_ocr = true →
      ∀ out, chunkDocument cfg StrategyName.text
          { doc_id := docId, doc_title := title, fmt := Format.pdf,
            units := pdfPageUnits cfg (some r) [page] } = Except.ok out →
        ∀ c ∈ out.chunks, c.meta.extracted_with_ocr = true) := by
  refine ⟨?_, rfl, ?_⟩
  · unfold ocrInvoked
    rw [hocr, Bool.true_and, decide_eq_true_eq]
  · intro hfl out hok c hc
    have hpr := processPage_flag cfg (some r) page hfl
    rcases chunkDocument_ok hok with ⟨hch, _⟩
    have hdrop : dropEmptyUnits [pageUnit (processPage cfg (some r) page) 1]
        = [pageUnit (processPage cfg (some r) page) 1] := by
      unfold dropEmptyUnits
      rw [List.filter_cons]
      have : (pageUnit (processPage cfg (some r) page) 1).text ≠ "" := hpr.1
      simp [this]
    have hts : (strategyRun cfg docId StrategyName.text
        (dropEmptyUnits [pageUnit (processPage cfg (some r) page) 1])).1
          = [mkPre [pageUnit (processPage cfg (some r) page) 1] none
              (groupText [pageUnit (processPage cfg (some r) page) 1])] := by
      rw [show (strategyRun cfg docId StrategyName.text
          (dropEmptyUnits [pageUnit (processPage cfg (some r) page) 1])).1
            = textStrategy cfg
                (dropEmptyUnits [pageUnit (processPage cfg (some r) page) 1])
          from rfl, hdrop]
      rfl
    rw [hch] at hc
    have hcc : c ∈ assignIds
        { doc_id := docId, doc_title := title, fmt := Format.pdf,
          units := pdfPageUnits cfg (some r) [page] }
        [mkPre [pageUnit (processPage cfg (some r) page) 1] none
          (groupText [pageUnit (processPage cfg (some r) page) 1])] := by
      rw [← hts]
      exact hc
    rcases mem_assignIds hcc with ⟨q, hq, rfl⟩
    simp only [withIdx, List.mem_cons] at hq
    rcases hq with rfl | hq
    · show List.any [pageUnit (processPage cfg (some r) page) 1]
          StructuralUnit.ocr = true
      simp only [List.any_cons, List.any_nil, Bool.or_false]
      exact hfl
    · simp [withIdx] at hq

/-! ## Orphan-tolerant retrieval and document deletion -/

/-- C7: a query hit whose `meta.parent_id` is absent from the parent store
returns the child chunk (its content exactly as stored in the vector index)
with no parent content attached; `query` is total, so no error is raised. -/
theorem orphan_parent_returns_child_alone (st : Stores)
    (embed : String → List Int) (qtext : String) (topK : Nat)
    (hit : QueryHit) (pid : String)
    (hhit : hit ∈ query st embed qtext topK true)
    (hpid : hit.chunk.meta.parent_id = some pid)
    (hmiss : fetch_parent st pid = none) :
    hit.parent_content = none ∧ ∃ e ∈ st.vec, e.chunk = hit.chunk := by
  unfold query at hhit
  rcases List.mem_map.mp hhit with ⟨p, hp, he⟩
  constructor
  · rw [← he]
    show (if true = true then (p.1.meta.parent_id).bind (fetch_parent st)
        else none) = none
    rw [if_pos rfl]
    have hp1 : p.1.meta.parent_id = some pid := by
      rw [← he] at hpid
      exact hpid
    rw [hp1]
    simpa using hmiss
  · have hpsort : p ∈ sortDesc Prod.snd
        (st.vec.map (fun e => (e.chunk, dot (embed qtext) e.embedding))) :=
      List.take_subset _ _ hp
    have hpm := (mem_sortDesc Prod.snd _ p).mp hpsort
    rcases List.mem_map.mp hpm with ⟨e, hev, hpe⟩
    refine ⟨e, hev, ?_⟩
    rw [← he]
    show e.chunk = p.1
    rw [← hpe]

/-- C8: `delete_document` removes exactly the chunks and parents owned by
`doc_id` from both stores (everything else is kept), it is idempotent, and
deleting a document with nothing stored is a no-op returning the stores
unchanged; the function is total, so re-deletion never raises an error. -/
theorem delete_document_spec (st : Stores) (docId : String) :
    (∀ e ∈ (delete_document st docId).vec, e.chunk.doc_id ≠ docId) ∧
    (∀ e ∈ (delete_document st docId).parentStore, e.2.doc_id ≠ docId) ∧
    (∀ e ∈ st.vec, e.chunk.doc_id ≠ docId →
        e ∈ (delete_document st docId).vec) ∧
    (∀ e ∈ st.parentStore, e.2.doc_id ≠ docId →
        e ∈ (delete_document st docId).parentStore) ∧
    delete_document (delete_document st docId) docId
        = delete_document st docId ∧
    ((∀ e ∈ st.vec, e.chunk.doc_id ≠ docId) →
      (∀ e ∈ st.parentStore, e.2.doc_id ≠ docId) →
      delete_document st docId = st) := by
  refine ⟨?_, ?_, ?_, ?_, ?_, ?_⟩
  · intro e he
    exact of_decide_eq_true (List.mem_filter.mp he).2
  · intro e he
    exact of_decide_eq_true (List.mem_filter.mp he).2
  · intro e he hne
    exact List.mem_filter.mpr ⟨he, decide_eq_true hne⟩
  · intro e he hne
    exact List.mem_filter.mpr ⟨he, decide_eq_true hne⟩
  · unfold delete_document
    simp only [List.filter_filter]
    congr 1
    · apply List.filter_congr
      intro e _
      rw [Bool.and_self]
    · apply List.filter_congr
      intro e _
      rw [Bool.and_self]
  · intro h1 h2
    unfold delete_document
    cases st with
    | mk v ps =>
        simp only
        congr 1
        · exact List.filter_eq_self.mpr (fun a ha => decide_eq_true (h1 a ha))
        · exact List.filter_eq_self.mpr (fun a ha => decide_eq_true (h2 a ha))

/-! ## Concrete instances -/

/-- Extract the successful output of a chunking run (empty output on error). -/
def forcedOut (e : Except IngestError IngestOutput) : IngestOutput :=
  match e with
  | Except.ok o => o
  | Except.error _ => { chunks := [], parents := [] }

def emptyChunk : Chunk :=
  { chunk_id := ""
    doc_id := ""
    doc_title := none
    section_path := none
    content_type := none
    content := ""
    meta := { parent_id := none, extracted_with_ocr := false, source_page := none } }

def emptyParent : ParentChunk :=
  { parent_id := "", doc_id := "", section_path := none, content := "" }

def emptyHit : QueryHit :=
  { chunk := emptyChunk, score := 0, parent_content := none }

def zeroEmbed : String → List Int := fun _ => [1]

def emptyStores : Stores := { vec := [], parentStore := [] }

def exUnit1 : StructuralUnit :=
  { kind := UnitKind.heading
    text := "Title"
    section_path := ["Title"]
    page := 1
    ctype := none
    ocr := false }

def exUnit2 : StructuralUnit :=
  { kind := UnitKind.paragraph
    text := "Hello world."
    section_path := ["Title"]
    page := 1
    ctype := none
    ocr := false }

def exDocA : DocInput :=
  { doc_id := "docA"
    doc_title := some "A"
    fmt := Format.markdown
    units := [exUnit1, exUnit2] }

def exDocB : DocInput :=
  { doc_id := "docB"
    doc_title := none
    fmt := Format.markdown
    units := [exUnit1, exUnit2] }

def exDocC : DocInput :=
  { doc_id := "docC"
    doc_title := none
    fmt := Format.markdown
    units := [exUnit1, exUnit2] }

def exDocText : DocInput :=
  { doc_id := "docT"
    doc_title := none
    fmt := Format.text
    units := [exUnit2] }

def exPage : PdfPage := { directText := "abc", image := "img" }

def exRecognize : String → String := fun _ => "recognized page text."

def orphanChunk : Chunk :=
  { chunk_id := "c1"
    doc_id := "docO"
    doc_title := none
    section_path := none
    content_type := none
    content := "child content"
    meta :=
      { parent_id := some "gone"
        extracted_with_ocr := false
        source_page := none } }

def orphanStores : Stores :=
  { vec := [{ chunk := orphanChunk, embedding := [1] }], parentStore := [] }

/-- Witness for C1 at a concrete run: the first persisted chunk of a `text`
run on a concrete markdown document has non-empty content and the source
document's id. -/
theorem chunk_record_invariants_witness :
    ((forcedOut (chunkDocument defaultConfig StrategyName.text exDocA)).chunks.headD
        emptyChunk).content ≠ "" ∧
    ((forcedOut (chunkDocument defaultConfig StrategyName.text exDocA)).chunks.headD
        emptyChunk).doc_id = "docA" := by
  have h := chunk_record_invariants defaultConfig StrategyName.text exDocA
    (forcedOut (chunkDocument defaultConfig StrategyName.text exDocA)) rfl
  exact h.1 _ (by decide)

/-- Witness for C2 at a concrete run: the first child of a concrete
`parent_child` run is no longer than the first parent. -/
theorem parent_child_run_invariants_witness :
    ((forcedOut (chunkDocument defaultConfig StrategyName.parent_child
        exDocB)).chunks.headD emptyChunk).content.length
      ≤ ((forcedOut (chunkDocument defaultConfig StrategyName.parent_child
          exDocB)).parents.headD emptyParent).content.length := by
  have h := parent_child_run_invariants defaultConfig exDocB
    (forcedOut (chunkDocument defaultConfig StrategyName.parent_child exDocB))
    rfl
  exact h.2.2 _ (by decide) _ (by decide) (by decide)

/-- Witness for C4 at a concrete run: `structured` against a plain-text
document errors with `strategyUnsupported` and leaves the stores unchanged. -/
theorem structured_rejects_text_json_witness :
    runIngest defaultConfig zeroEmbed emptyStores StrategyName.structured
        exDocText
      = (emptyStores, Except.error IngestError.strategyUnsupported) :=
  structured_rejects_text_json defaultConfig zeroEmbed emptyStores exDocText
    (Or.inl rfl)

/-- Witness for C5 at a concrete run: the first indexed chunk of a concrete
`parent_child` run carries a parent reference (it is a child chunk). -/
theorem parents_never_in_vector_index_witness :
    ((forcedOut (chunkDocument defaultConfig StrategyName.parent_child
        exDocB)).chunks.headD emptyChunk).meta.parent_id ≠ none := by
  have h := parents_never_in_vector_index defaultConfig zeroEmbed emptyStores
    StrategyName.parent_child exDocB
    (forcedOut (chunkDocument defaultConfig StrategyName.parent_child exDocB))
    rfl
  exact h.2.2.1 (Or.inl rfl) _ (by decide)

/-- Witness for C6 at a concrete page: a 3-character direct extraction is
below the default threshold 10, so the OCR path is invoked. -/
theorem ocr_fallback_behaviour_witness :
    ocrInvoked defaultConfig exPage = true := by
  have h := ocr_fallback_behaviour defaultConfig exRecognize exPage "docP"
    none rfl
  exact h.1.mpr (by decide)

/-- Witness for C7 at a concrete store: the top hit references a deleted
parent, and the query returns it with no parent content and no error. -/
theorem orphan_parent_returns_child_alone_witness :
    ((query orphanStores zeroEmbed "q" 1 true).headD emptyHit).parent_content
      = none := by
  have h := orphan_parent_returns_child_alone orphanStores zeroEmbed "q" 1
    ((query orphanStores zeroEmbed "q" 1 true).headD emptyHit) "gone"
    (by decide) (by decide) rfl
  exact h.1

/-- Witness for C10 at a concrete run: a default-configuration ingestion of
a concrete two-unit markdown document emits a non-empty parent tier. -/
theorem default_run_emits_two_tiers_witness :
    (forcedOut (chunkDocument defaultConfig defaultConfig.splitStrategy
        exDocC)).parents ≠ [] := by
  have h := default_run_emits_two_tiers exDocC
    (forcedOut (chunkDocument defaultConfig defaultConfig.splitStrategy exDocC))
    (by decide) rfl
  exact h.2.2.2.1

end KB
